import Mathlib

/- Verification of the SimocRemote log query engine (src/utils.py and the
   sensor_range route of src/routes.py) against its specification.

   Modelling conventions.

   A log file is embedded at line granularity: each line carries its byte
   length (trailing newline included, so every line has positive length)
   together with its decoded content.  Byte offsets, which drive the
   binary searches of utils.py, are recovered as partial sums of line
   lengths.  The two readline calls performed after every seek (discard
   the partial line, then read the next complete line) are captured by
   readAfterSkip below, which was validated against the byte-level
   semantics of seek/readline/tell.

   Strings (JSON keys, sensor identifiers, file names, colors) are
   modelled as lists of characters (Str), so that every operation reduces
   inside the kernel; ASCII case mapping is used, which is what the
   identifiers handled by the program consist of.

   Timestamps are modelled as naturals, order-isomorphic to parsed
   datetimes, with 0 in the role of datetime.min - the sentinel that
   get_timestamp returns whenever a line fails to decode or its timestamp
   string fails to parse.

   Decodable lines are modelled as JSON objects (a decoded object is a
   key set plus the state of its timestamp field); lines holding a
   decodable non-object JSON value are outside the model, as they are
   outside the log format the engine serves. -/

namespace Simoc

/-- Character strings, modelled as lists of characters. -/
abbrev Str := List Char

/-- State of the `timestamp` field of a decoded JSON object: absent,
present with a value whose datetime parse fails, or present and parsed
(the raw string is kept because routes report it verbatim). -/
inductive TsField where
  | missing : TsField
  | unparseable : Str → TsField
  | parsed : Str → Nat → TsField
deriving DecidableEq

/-- A decoded JSON object: the keys other than `timestamp`, and the state
of its `timestamp` field. -/
structure JsonObj where
  otherKeys : List Str
  ts : TsField
deriving DecidableEq

/-- Decoded content of one line of a log file: whitespace-only (strip
yields the empty string), undecodable JSON, or a JSON object. -/
inductive LineContent where
  | blank : LineContent
  | bad : LineContent
  | obj : JsonObj → LineContent
deriving DecidableEq

/-- One line of a log file: its byte length (trailing newline included)
and its decoded content. -/
structure LogLine where
  len : Nat
  content : LineContent
deriving DecidableEq

/-- A log file is the list of its lines. -/
abbrev LogFile := List LogLine

/-- Total byte size of the file. -/
def fileSize (file : LogFile) : Nat := (file.map LogLine.len).sum

/-- Every line of a text file occupies at least one byte. -/
def WFlines (file : LogFile) : Prop := ∀ l ∈ file, 0 < l.len

instance (file : LogFile) : Decidable (WFlines file) :=
  List.decidableBAll _ file

/-- Byte offset at which line number `j` starts (the total size when `j`
is past the last line). -/
def lineStart (file : LogFile) (j : Nat) : Nat :=
  ((file.take j).map LogLine.len).sum

/-- Stream position after one readline from byte position `p`: the first
line-start boundary strictly beyond `p`, and `p` itself when `p` is at or
past the end of the file. -/
def nextBoundary : LogFile → Nat → Nat
  | [], p => p
  | l :: rest, p =>
    if p < l.len then l.len else l.len + nextBoundary rest (p - l.len)

/-- utils.py, the probe of both binary searches: seek to `p`, readline
once to discard the (possibly partial) line, then readline again.
Returns the content of the line obtained by the second readline together
with the stream position after it, or `none` when the second readline
hits the end of the file and returns the empty string. -/
def readAfterSkip : LogFile → Nat → Option (LineContent × Nat)
  | [], _ => none
  | [_], _ => none
  | l :: l2 :: rest, p =>
    if p < l.len then some (l2.content, l.len + l2.len)
    else (readAfterSkip (l2 :: rest) (p - l.len)).map (fun r => (r.1, l.len + r.2))

/-- utils.py get_timestamp: parse the line as JSON and read its
`timestamp` field; any failure yields datetime.min, modelled as 0. -/
def get_timestamp (c : LineContent) : Nat :=
  match c with
  | .obj o =>
    match o.ts with
    | .parsed _ t => t
    | _ => 0
  | _ => 0

/-- The shared loop of find_start_offset and find_end_offset, the two
functions differing only in the comparison that advances `lo` (`< target`
versus `<= target`), abstracted here as `adv`.  The loop terminates
because `hi - lo` strictly decreases; the recursion is driven by a fuel
counter which the wrappers instantiate with `hi - lo`, an upper bound on
the number of iterations, so the wrappers compute exactly what the
Python loop computes. -/
def offsetSearch (file : LogFile) (adv : Nat → Bool) : Nat → Nat → Nat → Nat
  | 0, lo, _ => lo
  | fuel + 1, lo, hi =>
    if lo < hi then
      match readAfterSkip file ((lo + hi) / 2) with
      | none => offsetSearch file adv fuel lo ((lo + hi) / 2)
      | some (c, pos) =>
        if adv (get_timestamp c) then offsetSearch file adv fuel pos hi
        else offsetSearch file adv fuel lo ((lo + hi) / 2)
    else lo

/-- utils.py find_start_offset: binary search for the first line whose
timestamp is at or after `target` (callers pass `lo = 0`,
`hi = fileSize file` for the default arguments). -/
def find_start_offset (file : LogFile) (target lo hi : Nat) : Nat :=
  offsetSearch file (fun t => decide (t < target)) (hi - lo) lo hi

/-- utils.py find_end_offset: binary search for the first line whose
timestamp is strictly after `target`. -/
def find_end_offset (file : LogFile) (target lo hi : Nat) : Nat :=
  offsetSearch file (fun t => decide (t ≤ target)) (hi - lo) lo hi

/-- The per-line body of the scan loop of get_data_in_range: a blank line
is skipped by the strip check, an undecodable one by the exception
handler, and a decoded entry is kept exactly when its timestamp parses
and lies within `[s, e]`. -/
def entryInRange (s e : Nat) (c : LineContent) : Option JsonObj :=
  match c with
  | .obj o =>
    match o.ts with
    | .parsed _ t => if s ≤ t ∧ t ≤ e then some o else none
    | _ => none
  | _ => none

/-- The linear scan of get_data_in_range: starting with the stream at
position `pos` (a line-start boundary), read whole lines while the
position at the top of the loop is below `endOff`. -/
def scanLoop (s e endOff : Nat) : LogFile → Nat → List JsonObj
  | [], _ => []
  | l :: rest, pos =>
    if pos < endOff then
      (entryInRange s e l.content).toList ++ scanLoop s e endOff rest (pos + l.len)
    else []

/-- Suffix of the file from byte offset `p`, defined for line-start
boundaries (the scan of get_data_in_range seeks to the offset returned by
find_start_offset, which is always such a boundary). -/
def dropAt : LogFile → Nat → LogFile
  | file, p =>
    if p = 0 then file
    else
      match file with
      | [] => []
      | l :: rest => dropAt rest (p - l.len)

/-- utils.py get_data_in_range: a missing file yields `[]`; otherwise the
two binary searches bound a byte window which a linear scan then filters.
The second search starts from the offset found by the first, mirroring
`find_end_offset(f, end, lo=start_offset)`. -/
def get_data_in_range (file? : Option LogFile) (s e : Nat) : List JsonObj :=
  match file? with
  | none => []
  | some file =>
    let so := find_start_offset file s 0 (fileSize file)
    let eo := find_end_offset file e so (fileSize file)
    scanLoop s e eo (dropAt file so) so

/-- The reference result stated by the specification for a range query: a
brute-force full scan of the file keeping, in file order, every decodable
record whose timestamp parses and lies in `[s, e]`. -/
def fullScanFilter (file : LogFile) (s e : Nat) : List JsonObj :=
  file.filterMap (fun l => entryInRange s e l.content)

/-- One sampling iteration of get_decimated_data: seek to `pos`, discard
one line, read the next complete line, keep it when it decodes. -/
def decimGo (file : LogFile) (step : Nat) : Nat → Nat → List JsonObj
  | 0, _ => []
  | n + 1, pos =>
    (match readAfterSkip file pos with
     | some (.obj o, _) => [o]
     | _ => []) ++ decimGo file step n (pos + step)

/-- utils.py get_decimated_data: sample `numPoints` byte positions spaced
`step = max 1 (size / numPoints)` apart (the Python loop runs exactly
`num_points` times; iterations whose position is past the end of the
file read the empty string and contribute nothing). -/
def get_decimated_data (file? : Option LogFile) (numPoints : Nat) : List JsonObj :=
  match file? with
  | none => []
  | some file =>
    if fileSize file = 0 then []
    else decimGo file (max 1 (fileSize file / numPoints)) numPoints 0

/-- utils.py get_last_data: `deque(f, 1)` keeps the final line of the
file; `json.loads` of that line either yields the entry or raises, and
every exception (including a missing file) results in `None`. -/
def get_last_data (file? : Option LogFile) : Option JsonObj :=
  match file? with
  | none => none
  | some file =>
    match file.getLast? with
    | none => none
    | some l =>
      match l.content with
      | .obj o => some o
      | _ => none

/- ------------------------------------------------------------------ -/
/- String primitives (ASCII, at the level Python applies them here).  -/
/- ------------------------------------------------------------------ -/

/-- ASCII lower-casing of one character, as str.lower acts on the
identifiers this program handles. -/
def lowerChar (c : Char) : Char :=
  if 65 ≤ c.toNat ∧ c.toNat ≤ 90 then Char.ofNat (c.toNat + 32) else c

/-- ASCII upper-casing of one character. -/
def upperChar (c : Char) : Char :=
  if 97 ≤ c.toNat ∧ c.toNat ≤ 122 then Char.ofNat (c.toNat - 32) else c

/-- Lower-cased string, as `s.lower()`. -/
def lowerStr (s : Str) : Str := s.map lowerChar

/-- Upper-cased string, as `s.upper()`. -/
def upperStr (s : Str) : Str := s.map upperChar

/-- Does `s` start with `pre`. -/
def startsWithStr : Str → Str → Bool
  | [], _ => true
  | _ :: _, [] => false
  | a :: pre, b :: s => a == b && startsWithStr pre s

/-- Python substring membership `sub in s`: `sub` occurs contiguously in
`s` (the empty string occurs in every string). -/
def containsStr (sub : Str) : Str → Bool
  | [] => sub.isEmpty
  | c :: rest => startsWithStr sub (c :: rest) || containsStr sub rest

/-- Does `s` end with `suf`. -/
def endsWithStr (s suf : Str) : Bool :=
  decide (suf.length ≤ s.length) && (s.drop (s.length - suf.length) == suf)

/-- Lexicographic string order by code point, Python's `<=` on str. -/
def strLe : Str → Str → Bool
  | [], _ => true
  | _ :: _, [] => false
  | a :: s, b :: t =>
    if a.toNat = b.toNat then strLe s t else decide (a.toNat < b.toNat)

/-- The order relation sorted() uses, in relational form. -/
def strLeR (a b : Str) : Prop := strLe a b = true

instance : DecidableRel strLeR := fun a b => by unfold strLeR; infer_instance

/-- Splitting a string at underscores, as `s.split('_')`. -/
def splitUnd : Str → List Str
  | [] => [[]]
  | c :: rest =>
    if c = '_' then [] :: splitUnd rest
    else
      match splitUnd rest with
      | [] => [[c]]
      | g :: gs => (c :: g) :: gs

/-- Joining with underscores, as `'_'.join(parts)`. -/
def joinUnd (parts : List Str) : Str := List.intercalate ['_'] parts

/- ------------------------------------------------------------------ -/
/- Sensor discovery (utils.py discover_sensors).                      -/
/- ------------------------------------------------------------------ -/

/-- The filename pattern of utils.py (one or more non-underscore
characters, an underscore, again, an underscore, then the sensor name,
then the literal suffix `.jsonl`); returns the captured sensor name.
The greedy capture group runs to the final `.jsonl`, so it is the whole
remainder after the second underscore with that suffix removed. -/
def matchSensorPattern (filename : Str) : Option Str :=
  if endsWithStr filename ".jsonl".toList then
    match splitUnd (filename.take (filename.length - 6)) with
    | p0 :: p1 :: rest =>
      if p0 ≠ [] ∧ p1 ≠ [] ∧ rest ≠ [] ∧ joinUnd rest ≠ [] then some (joinUnd rest)
      else none
    | _ => none
  else none

/-- Keys of a decoded object as entry.keys() sees them: the non-timestamp
keys plus `timestamp` when that field is present in any form. -/
def keysOf (o : JsonObj) : List Str :=
  o.otherKeys ++ (match o.ts with | .missing => [] | _ => ["timestamp".toList])

/-- The set comprehension of discover_sensors: every key of the record
except `timestamp` and `n`. -/
def paramsOf (o : JsonObj) : List Str :=
  (keysOf o).filter (fun k => !(k == "timestamp".toList) && !(k == "n".toList))

/-- The schema inference loop of discover_sensors over the lines it was
given: skip blank and undecodable lines and decoded objects without a
`timestamp` key; on an object with one, keep its filtered key set and
stop if that set is non-empty.  When no line yields a non-empty set the
final value of `params` is empty and the caller skips the sensor, so the
loop is equivalent to returning the empty list in that case. -/
def inferLoop : List LineContent → List Str
  | [] => []
  | .blank :: rest => inferLoop rest
  | .bad :: rest => inferLoop rest
  | .obj o :: rest =>
    if o.ts ≠ .missing then
      if paramsOf o ≠ [] then paramsOf o else inferLoop rest
    else inferLoop rest

/-- Schema inference reads at most the first 30 lines of the file. -/
def inferParams (lines : List LineContent) : List Str :=
  inferLoop (lines.take 30)

/-- sorted(list(params)): the set becomes a duplicate-free list in
lexicographic order. -/
def sortKeys (ks : List Str) : List Str :=
  List.insertionSort strLeR ks.dedup

/-- The fixed palette of discover_sensors. -/
def baseColors : List Str :=
  ["#FF8C00".toList, "#FF4444".toList, "#4488FF".toList, "#FF66AA".toList,
   "#44AA44".toList, "#FFFF44".toList, "#AA44FF".toList, "#44FFFF".toList,
   "#FFAA44".toList, "#88FF88".toList]

/-- The reserved color for carbon dioxide. -/
def co2Color : Str := "#00FF00".toList

/-- The color assignment loop: a parameter lower-casing to co2 receives
the reserved color, any other receives the palette entry indexed by the
number of colors assigned so far modulo the palette length. -/
def assignColorsGo : List Str → List Str → List Str
  | acc, [] => acc
  | acc, p :: ps =>
    if lowerStr p = "co2".toList then assignColorsGo (acc ++ [co2Color]) ps
    else
      assignColorsGo (acc ++ [baseColors.getD (acc.length % baseColors.length) []]) ps

/-- Colors assigned to a parameter list, in order. -/
def assignedColors (params : List Str) : List Str := assignColorsGo [] params

/-- The allow-list for the BNO085 / MOCK_IMU sensor family. -/
def keepIMU : List Str :=
  ["linear_accel_x".toList, "linear_accel_y".toList, "linear_accel_z".toList]

/-- Does the sensor name belong to the family that is restricted to the
allow-list (case-insensitive substring tests on the upper-cased name). -/
def familyIMU (name : Str) : Bool :=
  containsStr "BNO085".toList (upperStr name) ||
    containsStr "MOCK_IMU".toList (upperStr name)

/-- The blocking test of discover_sensors: some blocked substring occurs
in the lower-cased sensor name (the blocked string itself is used
verbatim). -/
def isBlocked (blocked : List Str) (name : Str) : Bool :=
  blocked.any (fun b => containsStr b (lowerStr name))

/-- One catalog entry: source file name, parameter list, colors. -/
structure SensorInfo where
  file : Str
  params : List Str
  colors : List Str
deriving DecidableEq

/-- Assignment into the sensors dict: a repeated sensor name overwrites
the stored descriptor in place. -/
def upsert (k : Str) (v : SensorInfo) : List (Str × SensorInfo) → List (Str × SensorInfo)
  | [] => [(k, v)]
  | (k', v') :: rest => if k' = k then (k, v) :: rest else (k', v') :: upsert k v rest

/-- The directory loop of discover_sensors over a listing of
(filename, decoded lines of that file). -/
def discoverGo (blocked : List Str) :
    List (Str × List LineContent) → List (Str × SensorInfo) → List (Str × SensorInfo)
  | [], acc => acc
  | (fname, lines) :: rest, acc =>
    match matchSensorPattern fname with
    | none => discoverGo blocked rest acc
    | some name =>
      if isBlocked blocked name then discoverGo blocked rest acc
      else
        if inferParams lines ≠ [] then
          let sorted := sortKeys (inferParams lines)
          let paramList := if familyIMU name then sorted.filter (fun p => decide (p ∈ keepIMU)) else sorted
          discoverGo blocked rest
            (upsert name ⟨fname, paramList, assignedColors paramList⟩ acc)
        else discoverGo blocked rest acc

/-- utils.py discover_sensors: scan the listing, build the catalog, and
return it sorted by sensor name (`dict(sorted(sensors.items()))`). -/
def discover_sensors (listing : List (Str × List LineContent)) (blocked : List Str) :
    List (Str × SensorInfo) :=
  List.insertionSort (fun a b => strLeR a.1 b.1) (discoverGo blocked listing [])

/- ------------------------------------------------------------------ -/
/- The sensor_range route (routes.py).                                -/
/- ------------------------------------------------------------------ -/

/-- Result of the sensor_range endpoint once the sensor is known: the
JSON body `{start, end, count}`, or the error response (HTTP 500 with
the exception text) produced by the handler of the surrounding try. -/
inductive SummaryResult where
  | ok : Option Str → Option Str → Nat → SummaryResult
  | err : SummaryResult
deriving DecidableEq

/-- entry.get('timestamp') on a decoded object: the raw string stored
under the key, absent when the key is missing. -/
def rawTs (o : JsonObj) : Option Str :=
  match o.ts with
  | .missing => none
  | .unparseable r => some r
  | .parsed r _ => some r

/-- Python truthiness of the start timestamp used for the count: None and
the empty string count as false. -/
def truthyTs : Option Str → Bool
  | none => false
  | some [] => false
  | some (_ :: _) => true

/-- routes.py sensor_range, from the file-existence check onward.  A
missing or zero-size file, or a blank first line, yields
`{None, None, 0}`.  An undecodable first line raises inside the try and
produces the error response.  The backward byte scan then reads the
final line when the file has at least two lines; on a single-line file
it overshoots (the terminal newline is skipped, no earlier newline
exists, and the walk stops with the stream after byte 0), so readline
returns the first line minus its leading byte - the decode of that
fragment is not determined by line-level content and is supplied as the
`tail` argument; with a single line of at most one byte readline returns
the empty string and the first entry is reused.  A last read that strips
to the empty string reuses the first entry; one that fails to decode
raises and produces the error response. -/
def sensor_range (file? : Option LogFile) (tail : LineContent) : SummaryResult :=
  match file? with
  | none => .ok none none 0
  | some [] => .ok none none 0
  | some (l0 :: rest) =>
    match l0.content with
    | .blank => .ok none none 0
    | .bad => .err
    | .obj o =>
      let lastRead : LineContent :=
        match rest.getLast? with
        | some ll => ll.content
        | none => if l0.len ≤ 1 then .blank else tail
      match lastRead with
      | .bad => .err
      | .blank =>
        .ok (rawTs o) (rawTs o) (if truthyTs (rawTs o) then (l0 :: rest).length else 0)
      | .obj o' =>
        .ok (rawTs o) (rawTs o') (if truthyTs (rawTs o) then (l0 :: rest).length else 0)

/- ------------------------------------------------------------------ -/
/- Properties of the probe readAfterSkip.                             -/
/- ------------------------------------------------------------------ -/

def AboveAll (file : LogFile) (T cut : Nat) : Prop :=
  ∀ p c q, cut ≤ p → readAfterSkip file p = some (c, q) → T ≤ get_timestamp c

def searchStep (file : LogFile) (adv : Nat → Bool) (lo hi : Nat) : Nat × Nat :=
  match readAfterSkip file ((lo + hi) / 2) with
  | none => (lo, (lo + hi) / 2)
  | some (c, pos) =>
    if adv (get_timestamp c) then (pos, hi) else (lo, (lo + hi) / 2)

/-- While `lo < hi`, the loop performs exactly the update described by
searchStep and continues. -/
instance : IsTotal Str strLeR := by
  constructor
  intro a
  induction a with
  | nil => intro b; left; rfl
  | cons x s ih =>
    intro b
    cases b with
    | nil => right; rfl
    | cons y t =>
      by_cases hxy : x.toNat = y.toNat
      · rcases ih t with h | h
        · left
          unfold strLeR strLe
          rw [if_pos hxy]
          exact h
        · right
          unfold strLeR strLe
          rw [if_pos (by omega)]
          exact h
      · rcases Nat.lt_or_ge x.toNat y.toNat with h | h
        · left
          unfold strLeR strLe
          rw [if_neg hxy]
          simpa using h
        · right
          unfold strLeR strLe
          rw [if_neg (by omega)]
          simp
          omega

instance : IsTrans Str strLeR := by
  constructor
  intro a
  induction a with
  | nil => intro b c _ _; rfl
  | cons x s ih =>
    intro b c hab hbc
    cases b with
    | nil => exact absurd hab (by unfold strLeR strLe; simp)
    | cons y t =>
      cases c with
      | nil => exact absurd hbc (by unfold strLeR strLe; simp)
      | cons z u =>
        unfold strLeR strLe at hab hbc ⊢
        by_cases hxy : x.toNat = y.toNat
        · rw [if_pos hxy] at hab
          by_cases hyz : y.toNat = z.toNat
          · rw [if_pos hyz] at hbc
            rw [if_pos (by omega)]
            exact ih t u hab hbc
          · rw [if_neg hyz] at hbc
            rw [if_neg (by omega)]
            simp at hbc ⊢
            omega
        · rw [if_neg hxy] at hab
          simp at hab
          by_cases hyz : y.toNat = z.toNat
          · rw [if_neg (by omega)]
            simp
            omega
          · rw [if_neg hyz] at hbc
            simp at hbc
            rw [if_neg (by omega)]
            simp
            omega

/- ------------------------------------------------------------------ -/
/- Properties of discovery, inference and color assignment.           -/
/- ------------------------------------------------------------------ -/

def qualifies (c : LineContent) : Bool :=
  match c with
  | .obj o => decide (o.ts ≠ .missing) && decide (paramsOf o ≠ [])
  | _ => false

/-- What the specification describes for schema inference, stated with
find?: the parameter set of the first qualifying line. -/
def paramsOfFirstQualifying (cs : List LineContent) : List Str :=
  match cs.find? qualifies with
  | some (.obj o) => paramsOf o
  | _ => []

def goodLine (len t : Nat) (raw : Str) : LogLine :=
  ⟨len, .obj ⟨["p".toList], .parsed raw t⟩⟩

def raw1 : Str := "2024-01-01 00:00:00.000001".toList

def raw2 : Str := "2024-01-01 00:00:00.000002".toList

def raw3 : Str := "2024-01-01 00:00:00.000003".toList

def raw4 : Str := "2024-01-01 00:00:00.000004".toList

def raw9 : Str := "2024-01-01 00:00:00.000009".toList

def raw11 : Str := "2024-01-01 00:00:00.000011".toList

/-- A monotone, fully well-formed four-line file (lengths 120, 80, 90,
110 bytes; timestamps 2, 3, 4, 11). -/
def file4 : LogFile :=
  [goodLine 120 2 raw2, goodLine 80 3 raw3, goodLine 90 4 raw4,
   goodLine 110 11 raw11]

/-- The record carried by each line of file4. -/
def rec4ts (t : Nat) (raw : Str) : JsonObj := ⟨["p".toList], .parsed raw t⟩

/-- C1: on file4 with bounds `[0, 11]` restricted to `[0, 6]`, the range
query drops the third record although its timestamp 4 lies inside the
bounds: find_end_offset probes byte 200 (exactly the start of the third
line), reads the following line (timestamp 11 > 6), shrinks `hi` to 200,
then a probe at byte 100 reads the second line (timestamp 3 <= 6) and
jumps `lo` to 200; the search returns 200 and the scan stops before the
third line.  The brute-force scan keeps all three in-range records, so
the two disagree on a log that satisfies every assumption of the claim
(all lines decodable, timestamps non-decreasing, start <= end). -/
def f3 : LogFile := [⟨2, .bad⟩]

/-- C3, the claim refuted: with `lo = 0`, `hi = 2` the probe at
`mid = 1` discards the partial line and the next readline returns the
empty string (the line is absent).  The claim says the search then
advances `lo` to just past that line; the code instead shrinks `hi` to
`mid` (`if not line: hi = mid`), leaving `lo` at 0, and the whole search
returns 0 rather than an offset past the end. -/
def paramsPerClaimC4 (lines : List LineContent) : List Str :=
  match (lines.take 30).find? (fun c =>
      match c with
      | .obj o => decide (o.ts ≠ .missing)
      | _ => false) with
  | some (.obj o) => sortKeys ((keysOf o).filter (fun k => !(k == "timestamp".toList)))
  | _ => []

/-- C4, the claim refuted: on a file whose first record is
`{"timestamp": ..., "n": 1}` the claim yields the parameter `n`, but the
comprehension in discover_sensors excludes `n` alongside `timestamp`, so
the inferred set is empty (and the sensor is not added at all).  The
claim also overlooks that a line whose filtered key set is empty does
not stop the scan. -/
def colorsPerClaimC5 : Nat → List Str → List Str
  | _, [] => []
  | k, p :: ps =>
    if lowerStr p = "co2".toList then co2Color :: colorsPerClaimC5 k ps
    else baseColors.getD (k % baseColors.length) [] :: colorsPerClaimC5 (k + 1) ps

/-- C5, the claim refuted: on the sorted parameter list `[co2, x]` the
code indexes the palette by the number of colors already assigned
(`len(assigned_colors)`), co2 included, so `x` receives palette entry 1;
the claim's count of non-reserved parameters before `x` is 0 and would
give entry 0. -/
def co2Line : LineContent := .obj ⟨["co2".toList], .parsed raw1 5⟩

/-- A well-formed temperature record line. -/
def tempLine : LineContent := .obj ⟨["temp".toList], .parsed raw1 5⟩

/-- The directory listing of the concrete scenario of claim C6. -/
def exListing : List (Str × List LineContent) :=
  [("A_B_CO2.jsonl".toList, [co2Line]),
   ("A_B_mockTemp.jsonl".toList, [tempLine])]

/-- The catalog entry the CO2 file yields. -/
def exCO2Info : SensorInfo :=
  ⟨"A_B_CO2.jsonl".toList, ["co2".toList], [co2Color]⟩

/-- C6, the claim refuted on case-insensitivity: only the sensor name is
lower-cased before the substring test, the blocked string is used
verbatim.  With blocked list `["MOCK"]` the sensor `mockTemp`, whose
identifier case-insensitively contains `MOCK`, still enters the
catalog. -/
def fooLine : LineContent := .obj ⟨["foo".toList], .parsed raw1 5⟩

/-- C7, the claim refuted: the non-emptiness test `if params:` runs
before the family allow-list restriction.  A BNO085 file whose inferred
key is `foo` passes the test, then the restriction drops every
parameter, and a descriptor with an empty parameter list enters the
catalog. -/
def file6 : LogFile :=
  [goodLine 60 1 raw1, goodLine 60 1 raw1, goodLine 60 1 raw1,
   goodLine 60 1 raw1, goodLine 60 9 raw9, goodLine 60 1 raw1]

/-- C9, the claim refuted: on file6 with target 5 the search from the
default bounds returns 180, but re-running it with `lo` at its own
result returns 360 - find_start_offset is not idempotent on every file
(the first run's shrunken `hi` hid the later region where timestamps
fall back below the target). -/
theorem readAfterSkip_lt (file : LogFile) (p : Nat) (c : LineContent) (q : Nat)
    (h : readAfterSkip file p = some (c, q)) : p < q := by
  induction file generalizing p q with
  | nil => simp [readAfterSkip] at h
  | cons l rest ih =>
    cases rest with
    | nil => simp [readAfterSkip] at h
    | cons l2 r2 =>
      rw [readAfterSkip] at h
      by_cases hp : p < l.len
      · rw [if_pos hp] at h
        simp only [Option.some.injEq, Prod.mk.injEq] at h
        omega
      · rw [if_neg hp] at h
        cases hr : readAfterSkip (l2 :: r2) (p - l.len) with
        | none => rw [hr] at h; simp at h
        | some r =>
          obtain ⟨rc, rq⟩ := r
          rw [hr] at h
          simp only [Option.map_some', Option.some.injEq, Prod.mk.injEq] at h
          have h2 := ih (p - l.len) rq (by rw [hr, h.1])
          omega

theorem readAfterSkip_ge_head (l : LogLine) (rest : LogFile) (p : Nat)
    (c : LineContent) (q : Nat) (h : readAfterSkip (l :: rest) p = some (c, q)) :
    l.len ≤ q := by
  cases rest with
  | nil => simp [readAfterSkip] at h
  | cons l2 r2 =>
    rw [readAfterSkip] at h
    by_cases hp : p < l.len
    · rw [if_pos hp] at h
      simp only [Option.some.injEq, Prod.mk.injEq] at h
      omega
    · rw [if_neg hp] at h
      cases hr : readAfterSkip (l2 :: r2) (p - l.len) with
      | none => rw [hr] at h; simp at h
      | some r =>
        rw [hr] at h
        simp only [Option.map_some', Option.some.injEq, Prod.mk.injEq] at h
        omega

/-- Positions further right read lines ending no earlier: the position
after the line read is monotone in the probe position. -/
theorem readAfterSkip_pos_mono (file : LogFile) (p p' : Nat) (hpp : p ≤ p')
    (c c' : LineContent) (q q' : Nat)
    (h : readAfterSkip file p = some (c, q))
    (h' : readAfterSkip file p' = some (c', q')) : q ≤ q' := by
  induction file generalizing p p' q q' with
  | nil => simp [readAfterSkip] at h
  | cons l rest ih =>
    cases rest with
    | nil => simp [readAfterSkip] at h
    | cons l2 r2 =>
      rw [readAfterSkip] at h h'
      by_cases hp : p < l.len
      · rw [if_pos hp] at h
        simp only [Option.some.injEq, Prod.mk.injEq] at h
        by_cases hp' : p' < l.len
        · rw [if_pos hp'] at h'
          simp only [Option.some.injEq, Prod.mk.injEq] at h'
          omega
        · rw [if_neg hp'] at h'
          cases hr : readAfterSkip (l2 :: r2) (p' - l.len) with
          | none => rw [hr] at h'; simp at h'
          | some r =>
            rw [hr] at h'
            simp only [Option.map_some', Option.some.injEq, Prod.mk.injEq] at h'
            have := readAfterSkip_ge_head l2 r2 _ _ _ hr
            omega
      · rw [if_neg hp] at h
        have hp2 : ¬ p' < l.len := by omega
        rw [if_neg hp2] at h'
        cases hr : readAfterSkip (l2 :: r2) (p - l.len) with
        | none => rw [hr] at h; simp at h
        | some r =>
          cases hr' : readAfterSkip (l2 :: r2) (p' - l.len) with
          | none => rw [hr'] at h'; simp at h'
          | some r' =>
            obtain ⟨rc, rq⟩ := r
            obtain ⟨rc', rq'⟩ := r'
            rw [hr] at h
            rw [hr'] at h'
            simp only [Option.map_some', Option.some.injEq, Prod.mk.injEq] at h h'
            have := ih (p - l.len) (p' - l.len) (by omega) rq rq'
              (by rw [hr, h.1]) (by rw [hr', h'.1])
            omega

/-- If a probe reads nothing, every probe further right also reads
nothing. -/
theorem readAfterSkip_none_mono (file : LogFile) (p p' : Nat) (hpp : p ≤ p')
    (h : readAfterSkip file p = none) : readAfterSkip file p' = none := by
  induction file generalizing p p' with
  | nil => simp [readAfterSkip]
  | cons l rest ih =>
    cases rest with
    | nil => simp [readAfterSkip]
    | cons l2 r2 =>
      rw [readAfterSkip] at h ⊢
      by_cases hp : p < l.len
      · rw [if_pos hp] at h
        simp at h
      · rw [if_neg hp] at h
        have hp2 : ¬ p' < l.len := by omega
        rw [if_neg hp2]
        cases hr : readAfterSkip (l2 :: r2) (p - l.len) with
        | none =>
          rw [ih (p - l.len) (p' - l.len) (by omega) hr]
          rfl
        | some r => rw [hr] at h; simp at h

/-- The line read by a probe is never the first line of the file. -/
theorem readAfterSkip_mem_drop (file : LogFile) (p : Nat) (c : LineContent)
    (q : Nat) (h : readAfterSkip file p = some (c, q)) :
    ∃ l ∈ file.drop 1, l.content = c := by
  induction file generalizing p q with
  | nil => simp [readAfterSkip] at h
  | cons l rest ih =>
    cases rest with
    | nil => simp [readAfterSkip] at h
    | cons l2 r2 =>
      rw [readAfterSkip] at h
      by_cases hp : p < l.len
      · rw [if_pos hp] at h
        simp only [Option.some.injEq, Prod.mk.injEq] at h
        exact ⟨l2, by simp, h.1⟩
      · rw [if_neg hp] at h
        cases hr : readAfterSkip (l2 :: r2) (p - l.len) with
        | none => rw [hr] at h; simp at h
        | some r =>
          obtain ⟨rc, rq⟩ := r
          rw [hr] at h
          simp only [Option.map_some', Option.some.injEq, Prod.mk.injEq] at h
          obtain ⟨l', hl', hlc⟩ := ih (p - l.len) rq (by rw [hr, h.1])
          refine ⟨l', ?_, hlc⟩
          simp only [List.drop_one, List.tail_cons] at hl' ⊢
          exact List.mem_cons_of_mem _ hl'

/-- On a file whose lines carry non-decreasing get_timestamp values, a
probe further right reads a line with a timestamp no smaller. -/
theorem readAfterSkip_ts_mono :
    ∀ file : LogFile,
      List.Pairwise (fun a b => get_timestamp a.content ≤ get_timestamp b.content) file →
      ∀ p p' : Nat, p ≤ p' → ∀ (c c' : LineContent) (q q' : Nat),
        readAfterSkip file p = some (c, q) → readAfterSkip file p' = some (c', q') →
        get_timestamp c ≤ get_timestamp c' := by
  intro file
  induction file with
  | nil => intro _ p p' _ c c' q q' h _; simp [readAfterSkip] at h
  | cons l rest ih =>
    intro hmono p p' hpp c c' q q' h h'
    cases rest with
    | nil => simp [readAfterSkip] at h
    | cons l2 r2 =>
      rw [List.pairwise_cons] at hmono
      rw [readAfterSkip] at h h'
      by_cases hp : p < l.len
      · rw [if_pos hp] at h
        simp only [Option.some.injEq, Prod.mk.injEq] at h
        by_cases hp' : p' < l.len
        · rw [if_pos hp'] at h'
          simp only [Option.some.injEq, Prod.mk.injEq] at h'
          rw [← h.1, ← h'.1]
        · rw [if_neg hp'] at h'
          cases hr : readAfterSkip (l2 :: r2) (p' - l.len) with
          | none => rw [hr] at h'; simp at h'
          | some r =>
            obtain ⟨rc, rq⟩ := r
            rw [hr] at h'
            simp only [Option.map_some', Option.some.injEq, Prod.mk.injEq] at h'
            obtain ⟨l'', hl'', hlc⟩ := readAfterSkip_mem_drop (l2 :: r2) (p' - l.len)
              c' rq (by rw [hr, h'.1])
            have hm2 := hmono.2
            rw [List.pairwise_cons] at hm2
            have hP := hm2.1 l'' (by simpa using hl'')
            rw [← h.1, ← hlc]
            exact hP
      · rw [if_neg hp] at h
        have hp2 : ¬ p' < l.len := by omega
        rw [if_neg hp2] at h'
        cases hr : readAfterSkip (l2 :: r2) (p - l.len) with
        | none => rw [hr] at h; simp at h
        | some r =>
          cases hr' : readAfterSkip (l2 :: r2) (p' - l.len) with
          | none => rw [hr'] at h'; simp at h'
          | some r' =>
            obtain ⟨rc, rq⟩ := r
            obtain ⟨rc', rq'⟩ := r'
            rw [hr] at h
            rw [hr'] at h'
            simp only [Option.map_some', Option.some.injEq, Prod.mk.injEq] at h h'
            exact ih hmono.2 (p - l.len) (p' - l.len) (by omega) c c' rq rq'
              (by rw [hr, h.1]) (by rw [hr', h'.1])

/-- Probes at or past the end of the file read nothing. -/
theorem readAfterSkip_none_of_ge (file : LogFile) (p : Nat)
    (hp : fileSize file ≤ p) : readAfterSkip file p = none := by
  induction file generalizing p with
  | nil => simp [readAfterSkip]
  | cons l rest ih =>
    cases rest with
    | nil => rfl
    | cons l2 r2 =>
      have hsz : fileSize (l :: l2 :: r2) = l.len + fileSize (l2 :: r2) := by
        simp [fileSize]
      rw [readAfterSkip, if_neg (by omega), ih (p - l.len) (by omega)]
      rfl

/-- The skip readline never moves the stream backwards. -/
theorem nextBoundary_ge (file : LogFile) (p : Nat) : p ≤ nextBoundary file p := by
  induction file generalizing p with
  | nil => simp [nextBoundary]
  | cons l rest ih =>
    rw [nextBoundary]
    by_cases hp : p < l.len
    · rw [if_pos hp]; omega
    · rw [if_neg hp]
      have := ih (p - l.len)
      omega

/-- The position after the line read by a probe is the boundary following
the boundary the probe skips to: that line starts at `nextBoundary file p`
and the stream is left at the boundary after it. -/
theorem readAfterSkip_pos_eq (file : LogFile) (hwf : WFlines file) (p : Nat)
    (c : LineContent) (q : Nat) (h : readAfterSkip file p = some (c, q)) :
    q = nextBoundary file (nextBoundary file p) := by
  induction file generalizing p q with
  | nil => simp [readAfterSkip] at h
  | cons l rest ih =>
    cases rest with
    | nil => simp [readAfterSkip] at h
    | cons l2 r2 =>
      have hl : 0 < l.len := hwf l (by simp)
      have hl2 : 0 < l2.len := hwf l2 (by simp)
      rw [readAfterSkip] at h
      by_cases hp : p < l.len
      · rw [if_pos hp] at h
        simp only [Option.some.injEq, Prod.mk.injEq] at h
        have e1 : nextBoundary (l :: l2 :: r2) p = l.len := by
          rw [nextBoundary, if_pos hp]
        have e2 : nextBoundary (l :: l2 :: r2) l.len = l.len + l2.len := by
          rw [nextBoundary, if_neg (by omega)]
          have h0 : l.len - l.len = 0 := by omega
          rw [h0, nextBoundary, if_pos hl2]
        rw [e1, e2]
        omega
      · rw [if_neg hp] at h
        cases hr : readAfterSkip (l2 :: r2) (p - l.len) with
        | none => rw [hr] at h; simp at h
        | some r =>
          obtain ⟨rc, rq⟩ := r
          rw [hr] at h
          simp only [Option.map_some', Option.some.injEq, Prod.mk.injEq] at h
          have hwf2 : WFlines (l2 :: r2) := fun x hx => hwf x (by simp [hx])
          have hih := ih hwf2 (p - l.len) rq (by rw [hr, h.1])
          have e1 : nextBoundary (l :: l2 :: r2) p =
              l.len + nextBoundary (l2 :: r2) (p - l.len) := by
            rw [nextBoundary, if_neg hp]
          have hge := nextBoundary_ge (l2 :: r2) (p - l.len)
          have e2 : nextBoundary (l :: l2 :: r2)
              (l.len + nextBoundary (l2 :: r2) (p - l.len)) =
              l.len + nextBoundary (l2 :: r2)
                (nextBoundary (l2 :: r2) (p - l.len)) := by
            rw [nextBoundary, if_neg (by omega)]
            have h0 : l.len + nextBoundary (l2 :: r2) (p - l.len) - l.len =
                nextBoundary (l2 :: r2) (p - l.len) := by omega
            rw [h0]
          rw [e1, e2]
          omega

/- ------------------------------------------------------------------ -/
/- Properties of the binary-search loop.                              -/
/- ------------------------------------------------------------------ -/

/-- The loop never moves `lo` backwards: its result is at least the
initial `lo`. -/
theorem offsetSearch_ge_lo (file : LogFile) (adv : Nat → Bool) :
    ∀ fuel lo hi, lo ≤ offsetSearch file adv fuel lo hi := by
  intro fuel
  induction fuel with
  | zero => intro lo hi; simp [offsetSearch]
  | succ fuel ih =>
    intro lo hi
    rw [offsetSearch]
    by_cases hlh : lo < hi
    · rw [if_pos hlh]
      cases hr : readAfterSkip file ((lo + hi) / 2) with
      | none => exact ih lo ((lo + hi) / 2)
      | some r =>
        obtain ⟨c, pos⟩ := r
        dsimp only
        by_cases ha : adv (get_timestamp c)
        · rw [if_pos ha]
          have h1 : (lo + hi) / 2 < pos := readAfterSkip_lt file _ c pos hr
          have h2 : lo ≤ (lo + hi) / 2 := by omega
          exact le_trans (by omega) (ih pos hi)
        · rw [if_neg ha]
          exact ih lo ((lo + hi) / 2)
    · rw [if_neg hlh]

/-- Bounding the loop result: when `B` dominates the initial `lo` and the
landing position of every probe of the working interval, it dominates the
result. -/
theorem offsetSearch_le_bound (file : LogFile) (adv : Nat → Bool) (B : Nat) :
    ∀ fuel lo hi, lo ≤ B →
      (∀ p c q, lo ≤ p → p < hi → readAfterSkip file p = some (c, q) → q ≤ B) →
      offsetSearch file adv fuel lo hi ≤ B := by
  intro fuel
  induction fuel with
  | zero => intro lo hi hlo _; simpa [offsetSearch] using hlo
  | succ fuel ih =>
    intro lo hi hlo hprobe
    rw [offsetSearch]
    by_cases hlh : lo < hi
    · rw [if_pos hlh]
      cases hr : readAfterSkip file ((lo + hi) / 2) with
      | none =>
        exact ih lo ((lo + hi) / 2) hlo
          (fun p c q hp1 hp2 hps => hprobe p c q hp1 (by omega) hps)
      | some r =>
        obtain ⟨c, pos⟩ := r
        dsimp only
        by_cases ha : adv (get_timestamp c)
        · rw [if_pos ha]
          have hmid : (lo + hi) / 2 < pos := readAfterSkip_lt file _ c pos hr
          have hposB : pos ≤ B := hprobe _ c pos (by omega) (by omega) hr
          exact ih pos hi hposB
            (fun p c' q hp1 hp2 hps => hprobe p c' q (by omega) hp2 hps)
        · rw [if_neg ha]
          exact ih lo ((lo + hi) / 2) hlo
            (fun p c' q hp1 hp2 hps => hprobe p c' q hp1 (by omega) hps)
    · rw [if_neg hlh]
      exact hlo

/-- Monotonicity of the loop result in the advancing predicate: a
predicate that advances whenever another does yields a result at least
as large. -/
theorem offsetSearch_mono_pred (file : LogFile) (P P' : Nat → Bool)
    (hPP : ∀ t, P t = true → P' t = true) :
    ∀ fuel lo hi,
      offsetSearch file P fuel lo hi ≤ offsetSearch file P' fuel lo hi := by
  intro fuel
  induction fuel with
  | zero => intro lo hi; simp [offsetSearch]
  | succ fuel ih =>
    intro lo hi
    rw [offsetSearch, offsetSearch]
    by_cases hlh : lo < hi
    · rw [if_pos hlh, if_pos hlh]
      cases hr : readAfterSkip file ((lo + hi) / 2) with
      | none => exact ih lo ((lo + hi) / 2)
      | some r =>
        obtain ⟨c, pos⟩ := r
        dsimp only
        by_cases ha : P (get_timestamp c)
        · rw [if_pos ha, if_pos (hPP _ ha)]
          exact ih pos hi
        · rw [if_neg ha]
          by_cases ha' : P' (get_timestamp c)
          · rw [if_pos ha']
            have hmid : (lo + hi) / 2 < pos := readAfterSkip_lt file _ c pos hr
            have hL : offsetSearch file P fuel lo ((lo + hi) / 2) ≤ pos := by
              refine offsetSearch_le_bound file P pos fuel lo ((lo + hi) / 2)
                (by omega) ?_
              intro p c' q hp1 hp2 hps
              exact readAfterSkip_pos_mono file p ((lo + hi) / 2) (by omega)
                c' c q pos hps hr
            have hR : pos ≤ offsetSearch file P' fuel pos hi :=
              offsetSearch_ge_lo file P' fuel pos hi
            omega
          · rw [if_neg ha']
            exact ih lo ((lo + hi) / 2)
    · rw [if_neg hlh, if_neg hlh]

/-- When no probe at or beyond the initial `lo` can advance, the loop
returns `lo` unchanged. -/
theorem offsetSearch_no_advance (file : LogFile) (adv : Nat → Bool)
    (lo : Nat)
    (hq : ∀ p c q, lo ≤ p → readAfterSkip file p = some (c, q) →
      adv (get_timestamp c) = false) :
    ∀ fuel hi, offsetSearch file adv fuel lo hi = lo := by
  intro fuel
  induction fuel with
  | zero => intro hi; rfl
  | succ fuel ih =>
    intro hi
    rw [offsetSearch]
    by_cases hlh : lo < hi
    · rw [if_pos hlh]
      cases hr : readAfterSkip file ((lo + hi) / 2) with
      | none => exact ih ((lo + hi) / 2)
      | some r =>
        obtain ⟨c, pos⟩ := r
        dsimp only
        rw [hq ((lo + hi) / 2) c pos (by omega) hr]
        simp only [Bool.false_eq_true, if_false]
        exact ih ((lo + hi) / 2)
    · rw [if_neg hlh]

/-- Every line readable from a probe at or beyond `cut` carries a
timestamp of at least `T`. -/
theorem aboveAll_mono_cut (file : LogFile) (T cut cut' : Nat) (h : cut ≤ cut')
    (ha : AboveAll file T cut) : AboveAll file T cut' :=
  fun p c q hp hs => ha p c q (le_trans h hp) hs

/-- No probe at or past the end of the file reads anything, so the whole
file size trivially satisfies the invariant. -/
theorem aboveAll_fileSize (file : LogFile) (T : Nat) :
    AboveAll file T (fileSize file) := by
  intro p c q hp hs
  rw [readAfterSkip_none_of_ge file p hp] at hs
  simp at hs

/-- Invariant of the loop on timestamp-monotone files: started with
enough fuel from a state whose upper end satisfies AboveAll, the loop
returns an offset that satisfies it as well (the lines readable beyond
the result all have timestamps that keep the advancing comparison
false). -/
theorem offsetSearch_aboveAll (file : LogFile)
    (hmono : List.Pairwise
      (fun a b => get_timestamp a.content ≤ get_timestamp b.content) file)
    (T : Nat) (adv : Nat → Bool) (hadv : ∀ t, adv t = false → T ≤ t) :
    ∀ fuel lo hi, hi - lo ≤ fuel → AboveAll file T hi →
      AboveAll file T (offsetSearch file adv fuel lo hi) := by
  intro fuel
  induction fuel with
  | zero =>
    intro lo hi hfuel hab
    exact aboveAll_mono_cut file T hi lo (by omega) hab
  | succ fuel ih =>
    intro lo hi hfuel hab
    rw [offsetSearch]
    by_cases hlh : lo < hi
    · rw [if_pos hlh]
      cases hr : readAfterSkip file ((lo + hi) / 2) with
      | none =>
        refine ih lo ((lo + hi) / 2) (by omega) ?_
        intro p c q hp hs
        rw [readAfterSkip_none_mono file ((lo + hi) / 2) p hp hr] at hs
        simp at hs
      | some r =>
        obtain ⟨c, pos⟩ := r
        dsimp only
        by_cases ha : adv (get_timestamp c)
        · rw [if_pos ha]
          have hmid : (lo + hi) / 2 < pos := readAfterSkip_lt file _ c pos hr
          exact ih pos hi (by omega) hab
        · rw [if_neg ha]
          refine ih lo ((lo + hi) / 2) (by omega) ?_
          intro p c' q' hp hs
          refine le_trans (hadv _ (by simpa using ha)) ?_
          exact readAfterSkip_ts_mono file hmono ((lo + hi) / 2) p hp c c' pos q' hr hs
    · rw [if_neg hlh]
      exact aboveAll_mono_cut file T hi lo (by omega) hab

/-- One iteration of the loop body: the updated pair `(lo, hi)`. -/
theorem offsetSearch_succ_eq_step (file : LogFile) (adv : Nat → Bool)
    (fuel lo hi : Nat) (h : lo < hi) :
    offsetSearch file adv (fuel + 1) lo hi =
      offsetSearch file adv fuel (searchStep file adv lo hi).1
        (searchStep file adv lo hi).2 := by
  rw [offsetSearch, if_pos h, searchStep]
  cases hr : readAfterSkip file ((lo + hi) / 2) with
  | none => dsimp only
  | some r =>
    obtain ⟨c, pos⟩ := r
    dsimp only
    by_cases ha : adv (get_timestamp c)
    · rw [if_pos ha, if_pos ha]
    · rw [if_neg ha, if_neg ha]

/- ------------------------------------------------------------------ -/
/- The string order is total and transitive (so sorted() sorts).      -/
/- ------------------------------------------------------------------ -/

theorem mem_upsert (k : Str) (v : SensorInfo) (n : Str) (i : SensorInfo) :
    ∀ acc, (n, i) ∈ upsert k v acc → (n = k ∧ i = v) ∨ (n, i) ∈ acc := by
  intro acc
  induction acc with
  | nil =>
    intro h
    simp [upsert] at h
    exact Or.inl h
  | cons kv rest ih =>
    obtain ⟨k', v'⟩ := kv
    intro h
    rw [upsert] at h
    by_cases hk : k' = k
    · rw [if_pos hk] at h
      rcases List.mem_cons.mp h with h1 | h1
      · simp at h1
        exact Or.inl h1
      · exact Or.inr (List.mem_cons_of_mem _ h1)
    · rw [if_neg hk] at h
      rcases List.mem_cons.mp h with h1 | h1
      · exact Or.inr (by simp [h1])
      · rcases ih h1 with h2 | h2
        · exact Or.inl h2
        · exact Or.inr (List.mem_cons_of_mem _ h2)

/-- A blocked sensor name is never added by the directory loop. -/
theorem discoverGo_blocked_not_mem (blocked : List Str) (n : Str)
    (hb : isBlocked blocked n = true) :
    ∀ listing acc, (∀ i' : SensorInfo, (n, i') ∉ acc) →
      ∀ i : SensorInfo, (n, i) ∉ discoverGo blocked listing acc := by
  intro listing
  induction listing with
  | nil =>
    intro acc hacc i h
    exact hacc i h
  | cons fl rest ih =>
    obtain ⟨fname, lines⟩ := fl
    intro acc hacc i h
    rw [discoverGo] at h
    cases hm : matchSensorPattern fname with
    | none =>
      rw [hm] at h
      exact ih acc hacc i h
    | some name =>
      rw [hm] at h
      dsimp only at h
      by_cases hbl : isBlocked blocked name
      · rw [if_pos hbl] at h
        exact ih acc hacc i h
      · rw [if_neg hbl] at h
        by_cases hps : inferParams lines ≠ []
        · rw [if_pos hps] at h
          have hne : name ≠ n := by
            intro he
            rw [he] at hbl
            exact hbl hb
          refine ih _ ?_ i h
          intro i' hmem
          rcases mem_upsert name _ n i' acc hmem with h2 | h2
          · exact hne h2.1.symm
          · exact hacc i' h2
        · rw [if_neg hps] at h
          exact ih acc hacc i h

/-- Every sensor added by the directory loop either keeps a non-empty
parameter list or belongs to the allow-list family. -/
theorem discoverGo_params (blocked : List Str) :
    ∀ listing acc,
      (∀ (n' : Str) (i' : SensorInfo), (n', i') ∈ acc →
        i'.params ≠ [] ∨ familyIMU n' = true) →
      ∀ (n : Str) (i : SensorInfo), (n, i) ∈ discoverGo blocked listing acc →
        i.params ≠ [] ∨ familyIMU n = true := by
  intro listing
  induction listing with
  | nil =>
    intro acc hacc n i h
    exact hacc n i h
  | cons fl rest ih =>
    obtain ⟨fname, lines⟩ := fl
    intro acc hacc n i h
    rw [discoverGo] at h
    cases hm : matchSensorPattern fname with
    | none =>
      rw [hm] at h
      exact ih acc hacc n i h
    | some name =>
      rw [hm] at h
      dsimp only at h
      by_cases hbl : isBlocked blocked name
      · rw [if_pos hbl] at h
        exact ih acc hacc n i h
      · rw [if_neg hbl] at h
        by_cases hps : inferParams lines ≠ []
        · rw [if_pos hps] at h
          refine ih _ ?_ n i h
          intro n' i' hmem
          rcases mem_upsert name _ n' i' acc hmem with h2 | h2
          · by_cases hf : familyIMU name = true
            · right
              rw [h2.1, hf]
            · left
              rw [h2.2]
              dsimp only
              rw [if_neg hf]
              have hd : (inferParams lines).dedup ≠ [] := by
                intro hk
                exact hps ((List.dedup_eq_nil (inferParams lines)).mp hk)
              have hperm := List.perm_insertionSort strLeR (inferParams lines).dedup
              intro hk
              rw [sortKeys] at hk
              rw [hk] at hperm
              exact hd (List.Perm.nil_eq hperm).symm
          · exact hacc n' i' h2
        · rw [if_neg hps] at h
          exact ih acc hacc n i h

/-- Membership in the returned catalog coincides with membership in the
accumulated one, the final step being only a permutation (the sort by
sensor name). -/
theorem mem_discover_sensors (listing : List (Str × List LineContent))
    (blocked : List Str) (e : Str × SensorInfo) :
    e ∈ discover_sensors listing blocked ↔ e ∈ discoverGo blocked listing [] := by
  rw [discover_sensors]
  exact (List.perm_insertionSort _ _).mem_iff

/-- The schema-inference loop picks the first line that decodes to an
object with a timestamp key and at least one further key beyond
`timestamp` and `n`. -/
theorem paramsOfFirstQualifying_cons_neg (c : LineContent)
    (rest : List LineContent) (h : qualifies c = false) :
    paramsOfFirstQualifying (c :: rest) = paramsOfFirstQualifying rest := by
  rw [paramsOfFirstQualifying, paramsOfFirstQualifying,
    List.find?_cons_of_neg _ (by simp [h])]

theorem inferLoop_eq_find : ∀ cs : List LineContent,
    inferLoop cs = paramsOfFirstQualifying cs := by
  intro cs
  induction cs with
  | nil => rfl
  | cons c rest ih =>
    cases c with
    | blank =>
      rw [inferLoop, paramsOfFirstQualifying_cons_neg _ _ (by simp [qualifies])]
      exact ih
    | bad =>
      rw [inferLoop, paramsOfFirstQualifying_cons_neg _ _ (by simp [qualifies])]
      exact ih
    | obj o =>
      rw [inferLoop]
      by_cases hts : o.ts ≠ .missing
      · rw [if_pos hts]
        by_cases hps : paramsOf o ≠ []
        · rw [if_pos hps]
          rw [paramsOfFirstQualifying,
            List.find?_cons_of_pos _ (by simp [qualifies, hts, hps])]
        · rw [if_neg hps]
          rw [paramsOfFirstQualifying_cons_neg _ _ (by simp [qualifies, hps])]
          exact ih
      · rw [if_neg hts]
        rw [paramsOfFirstQualifying_cons_neg _ _
          (by simp [qualifies]; intro h; exact absurd h hts)]
        exact ih

/-- Closed form of the color-assignment loop: the parameter at position
`j` receives the reserved color when it lower-cases to co2 and otherwise
the palette entry indexed by the total number of parameters before it
(co2 ones included) offset by the colors already accumulated, modulo the
palette length. -/
theorem assignColorsGo_eq : ∀ (ps acc : List Str),
    assignColorsGo acc ps =
      acc ++ (List.range ps.length).map (fun j =>
        if lowerStr (ps.getD j []) = "co2".toList then co2Color
        else baseColors.getD ((acc.length + j) % baseColors.length) []) := by
  intro ps
  induction ps with
  | nil => intro acc; simp [assignColorsGo]
  | cons p ps ih =>
    intro acc
    have key : ∀ x : Str,
        assignColorsGo (acc ++ [x]) ps =
          acc ++ (x :: (List.range ps.length).map (fun j =>
            if lowerStr (ps.getD j []) = "co2".toList then co2Color
            else baseColors.getD ((acc.length + (j + 1)) % baseColors.length) [])) := by
      intro x
      rw [ih (acc ++ [x]), List.append_assoc, List.singleton_append]
      congr 2
      apply List.map_congr_left
      intro j _
      have h1 : (acc ++ [x]).length + j = acc.length + (j + 1) := by
        simp only [List.length_append, List.length_cons, List.length_nil]
        omega
      rw [h1]
    rw [List.length_cons, List.range_succ_eq_map, List.map_cons]
    have hmapeq : ((fun j =>
        if lowerStr ((p :: ps).getD j []) = "co2".toList then co2Color
        else baseColors.getD ((acc.length + j) % baseColors.length) []) ∘ Nat.succ) =
        fun j => if lowerStr (ps.getD j []) = "co2".toList then co2Color
          else baseColors.getD ((acc.length + (j + 1)) % baseColors.length) [] := by
      funext j
      simp only [Function.comp_apply, List.getD_cons_succ]
    rw [List.map_map, hmapeq]
    rw [assignColorsGo]
    by_cases hc : lowerStr p = "co2".toList
    · rw [if_pos hc, key co2Color]
      simp only [List.getD_cons_zero]
      rw [if_pos hc]
    · rw [if_neg hc, key _]
      simp only [List.getD_cons_zero]
      rw [if_neg hc, Nat.add_zero]

/- ------------------------------------------------------------------ -/
/- Concrete fixtures for the evaluations below.                       -/
/- ------------------------------------------------------------------ -/

/-- A well-formed record line: byte length `len`, one data key `p`, and
a parsed timestamp with microsecond value `t` and raw string `raw`. -/
theorem c1_range_query_misses_record :
    get_data_in_range (some file4) 0 6 = [rec4ts 2 raw2, rec4ts 3 raw3] ∧
    fullScanFilter file4 0 6 =
      [rec4ts 2 raw2, rec4ts 3 raw3, rec4ts 4 raw4] ∧
    get_data_in_range (some file4) 0 6 ≠ fullScanFilter file4 0 6 := by
  decide

/-- C2, the claim refuted: get_last_data only ever decodes the final
line.  On a file whose first line is a well-formed record and whose last
line is undecodable, json.loads raises, the handler returns None, and the
caller gets absent although the file contains a well-formed record - so
absent is not returned exactly on empty, missing or all-malformed
files. -/
theorem c2_last_record_refuted :
    get_last_data (some [goodLine 60 4 raw4, ⟨10, .bad⟩]) = none ∧
    (goodLine 60 4 raw4).content = .obj (rec4ts 4 raw4) := by
  decide

/-- C2 amended: get_last_data returns the decoded content of the final
line when that line decodes, and absent exactly when the file is
missing, empty, or its final line fails to decode (even if earlier
lines are well-formed). -/
theorem c2_last_record_amended (file? : Option LogFile) :
    (∀ file l o, file? = some file → file.getLast? = some l →
      l.content = .obj o → get_last_data file? = some o) ∧
    (get_last_data file? = none ↔
      file? = none ∨ file? = some [] ∨
        ∃ file l, file? = some file ∧ file.getLast? = some l ∧
          ∀ o, l.content ≠ .obj o) := by
  constructor
  · intro file l o hf hl hc
    subst hf
    rw [get_last_data, hl]
    dsimp only
    rw [hc]
  · cases file? with
    | none => simp [get_last_data]
    | some file =>
      cases hl : file.getLast? with
      | none =>
        have hfe : file = [] := List.getLast?_eq_none_iff.mp hl
        subst hfe
        simp [get_last_data]
      | some l =>
        have hne : file ≠ [] := by
          intro he
          subst he
          simp at hl
        rw [get_last_data, hl]
        dsimp only
        cases hc : l.content with
        | blank =>
          simp only [true_iff]
          exact Or.inr (Or.inr ⟨file, l, rfl, hl, fun o => by rw [hc]; simp⟩)
        | bad =>
          simp only [true_iff]
          exact Or.inr (Or.inr ⟨file, l, rfl, hl, fun o => by rw [hc]; simp⟩)
        | obj o =>
          simp only [reduceCtorEq, false_iff]
          intro h
          rcases h with h | h | h
          · cases h
          · have hfe : file = [] := by injection h
            exact hne hfe
          · obtain ⟨file', l', he, hl', hno⟩ := h
            have hff : file' = file := by
              injection he with he3
              exact he3.symm
            rw [hff, hl] at hl'
            injection hl' with he2
            subst he2
            exact hno o hc


theorem c2_last_record_amended_witness :
    get_last_data (some [goodLine 60 4 raw4]) = some (rec4ts 4 raw4) :=
  (c2_last_record_amended (some [goodLine 60 4 raw4])).1 [goodLine 60 4 raw4]
    (goodLine 60 4 raw4) (rec4ts 4 raw4) rfl (by decide) (by decide)

/-- A one-line file (2 bytes, undecodable), on which the probe of the
binary search reads past the end of the file. -/
theorem c3_step_refuted :
    readAfterSkip f3 ((0 + 2) / 2) = none ∧
    searchStep f3 (fun t => decide (t < 5)) 0 2 = (0, 1) ∧
    find_start_offset f3 5 0 2 = 0 := by
  decide

/-- C3 amended: at an iteration with `lo < hi` and `mid = (lo+hi)/2`, if
the line after the skipped fragment is absent the search shrinks `hi` to
`mid`; if it is present with get_timestamp below the target (an
undecodable line yields the minimal sentinel, so it lands here whenever
the target exceeds it) the search advances `lo` to just past that line -
the boundary following the boundary at `mid`; otherwise it shrinks `hi`
to `mid`.  The last conjunct ties the step to the loop itself. -/
theorem c3_step_amended (file : LogFile) (T lo hi : Nat) (hwf : WFlines file)
    (h : lo < hi) :
    (readAfterSkip file ((lo + hi) / 2) = none →
      searchStep file (fun t => decide (t < T)) lo hi = (lo, (lo + hi) / 2)) ∧
    (∀ c q, readAfterSkip file ((lo + hi) / 2) = some (c, q) →
      (get_timestamp c < T →
        searchStep file (fun t => decide (t < T)) lo hi = (q, hi) ∧
        q = nextBoundary file (nextBoundary file ((lo + hi) / 2))) ∧
      (¬ get_timestamp c < T →
        searchStep file (fun t => decide (t < T)) lo hi = (lo, (lo + hi) / 2))) ∧
    (∀ fuel, offsetSearch file (fun t => decide (t < T)) (fuel + 1) lo hi =
      offsetSearch file (fun t => decide (t < T)) fuel
        (searchStep file (fun t => decide (t < T)) lo hi).1
        (searchStep file (fun t => decide (t < T)) lo hi).2) := by
  refine ⟨?_, ?_, ?_⟩
  · intro hr
    rw [searchStep, hr]
  · intro c q hr
    constructor
    · intro hlt
      rw [searchStep, hr]
      dsimp only
      rw [if_pos (by simpa using hlt)]
      exact ⟨rfl, readAfterSkip_pos_eq file hwf _ c q hr⟩
    · intro hge
      rw [searchStep, hr]
      dsimp only
      rw [if_neg (by simpa using hge)]
  · intro fuel
    exact offsetSearch_succ_eq_step file _ fuel lo hi h

theorem c3_step_amended_witness :
    searchStep file4 (fun t => decide (t < 100)) 0 400 = (400, 400) ∧
    (400 : Nat) = nextBoundary file4 (nextBoundary file4 ((0 + 400) / 2)) := by
  have h := c3_step_amended file4 100 0 400 (by decide) (by decide)
  have hr : readAfterSkip file4 ((0 + 400) / 2) =
      some (LineContent.obj (rec4ts 11 raw11), 400) := by decide
  have h2 := (h.2.1 _ _ hr).1 (by decide)
  exact ⟨h2.1, h2.2⟩

/-- What claim C4 describes for schema inference: take the first of the
first 30 lines that decodes and contains a `timestamp` key, and return
every key of that record other than `timestamp` itself, sorted. -/
theorem c4_schema_refuted :
    paramsPerClaimC4 [.obj ⟨["n".toList], .parsed raw1 1⟩] = ["n".toList] ∧
    inferParams [.obj ⟨["n".toList], .parsed raw1 1⟩] = [] ∧
    paramsPerClaimC4 [.obj ⟨["n".toList], .parsed raw1 1⟩] ≠
      inferParams [.obj ⟨["n".toList], .parsed raw1 1⟩] := by
  decide

/-- C4 amended: the inference loop returns the key set, minus
`timestamp` and `n`, of the first line among the first 30 that decodes
to an object carrying a `timestamp` key and at least one further key
beyond those two (lines whose filtered key set is empty are skipped,
not taken); the parameter list the catalog stores is that set
de-duplicated and lexicographically sorted. -/
theorem c4_schema_amended (lines : List LineContent) :
    inferParams lines = paramsOfFirstQualifying (lines.take 30) ∧
    (sortKeys (inferParams lines)).Sorted strLeR ∧
    (sortKeys (inferParams lines)).Perm (inferParams lines).dedup := by
  refine ⟨inferLoop_eq_find (lines.take 30), ?_, ?_⟩
  · rw [sortKeys]
    exact List.sorted_insertionSort strLeR _
  · rw [sortKeys]
    exact List.perm_insertionSort strLeR _

/-- What claim C5 describes for color assignment: the palette index of a
non-reserved parameter is the count of non-reserved parameters assigned
before it. -/
theorem c5_colors_refuted :
    assignedColors ["co2".toList, "x".toList] =
      [co2Color, "#FF4444".toList] ∧
    colorsPerClaimC5 0 ["co2".toList, "x".toList] =
      [co2Color, "#FF8C00".toList] ∧
    assignedColors ["co2".toList, "x".toList] ≠
      colorsPerClaimC5 0 ["co2".toList, "x".toList] := by
  decide

/-- C5 amended: a parameter lower-casing to co2 receives the reserved
color; every other parameter at position `j` receives the palette entry
at index `j` - the count of all parameters assigned before it, reserved
ones included - modulo the palette length. -/
theorem c5_colors_amended (params : List Str) :
    assignedColors params = (List.range params.length).map (fun j =>
      if lowerStr (params.getD j []) = "co2".toList then co2Color
      else baseColors.getD (j % baseColors.length) []) := by
  rw [assignedColors, assignColorsGo_eq]
  simp only [List.nil_append, List.length_nil, Nat.zero_add]

/-- A well-formed carbon-dioxide record line. -/
theorem c6_blocklist_refuted :
    discover_sensors [("A_B_mockTemp.jsonl".toList, [tempLine])] ["MOCK".toList] =
      [("mockTemp".toList,
        ⟨"A_B_mockTemp.jsonl".toList, ["temp".toList], ["#FF8C00".toList]⟩)] ∧
    containsStr (lowerStr "MOCK".toList) (lowerStr "mockTemp".toList) = true := by
  decide

/-- C6 amended: no sensor whose lower-cased identifier contains one of
the blocked substrings verbatim appears in the catalog (so the intended
case-insensitive behavior holds exactly when the blocked substrings are
supplied in lower case, as the shipped configuration does); and on the
concrete scenario - files A_B_CO2.jsonl and A_B_mockTemp.jsonl with
blocked list ["mock"] - the catalog contains only CO2. -/
theorem c6_blocklist_amended :
    (∀ (listing : List (Str × List LineContent)) (blocked : List Str)
      (name b : Str) (info : SensorInfo), b ∈ blocked →
      containsStr b (lowerStr name) = true →
      (name, info) ∉ discover_sensors listing blocked) ∧
    discover_sensors exListing ["mock".toList] = [("CO2".toList, exCO2Info)] := by
  constructor
  · intro listing blocked name b info hb hc hmem
    rw [mem_discover_sensors] at hmem
    have hbl : isBlocked blocked name = true := by
      rw [isBlocked, List.any_eq_true]
      exact ⟨b, hb, hc⟩
    exact discoverGo_blocked_not_mem blocked name hbl listing []
      (fun i' h => by simp at h) info hmem
  · decide

theorem c6_blocklist_amended_witness :
    ("mockTemp".toList,
      (⟨"A_B_mockTemp.jsonl".toList, ["temp".toList], ["#FF8C00".toList]⟩ : SensorInfo)) ∉
      discover_sensors exListing ["mock".toList] :=
  c6_blocklist_amended.1 exListing ["mock".toList] "mockTemp".toList "mock".toList
    ⟨"A_B_mockTemp.jsonl".toList, ["temp".toList], ["#FF8C00".toList]⟩
    (by decide) (by decide)

/-- A record line whose only data key lies outside the IMU allow-list. -/
theorem c7_params_refuted :
    discover_sensors [("A_B_BNO085.jsonl".toList, [fooLine])] [] =
      [("BNO085".toList, ⟨"A_B_BNO085.jsonl".toList, [], []⟩)] := by
  decide

/-- C7 amended: a sensor is added only when the parameter set inferred
before the family restriction is non-empty, so every descriptor in the
catalog either has a non-empty parameter list or belongs to the
BNO085 / MOCK_IMU family, whose allow-list restriction may empty it. -/
theorem c7_params_amended (listing : List (Str × List LineContent))
    (blocked : List Str) (name : Str) (info : SensorInfo)
    (hmem : (name, info) ∈ discover_sensors listing blocked) :
    info.params ≠ [] ∨ familyIMU name = true := by
  rw [mem_discover_sensors] at hmem
  exact discoverGo_params blocked listing [] (fun n' i' h => by simp at h)
    name info hmem

theorem c7_params_amended_witness :
    (exCO2Info.params ≠ [] ∨ familyIMU "CO2".toList = true) :=
  c7_params_amended exListing ["mock".toList] "CO2".toList exCO2Info (by decide)

/-- C8, the claim refuted: a file whose first line does not decode makes
`json.loads(first_line)` raise inside the try of sensor_range, and the
handler returns the 500 error response - malformed content is propagated
to the caller as an error, not turned into an empty/default result. -/
theorem c8_summary_refuted :
    sensor_range (some [⟨10, .bad⟩]) .blank = .err := by
  decide

/-- C8 amended: a missing file, an empty file or a blank first line
yields `{null, null, 0}`; a first line that fails to decode, or a final
line (of a file of at least two lines) that is non-blank and fails to
decode, yields the error response instead of a default result. -/
theorem c8_summary_amended (tail : LineContent) :
    sensor_range none tail = .ok none none 0 ∧
    sensor_range (some []) tail = .ok none none 0 ∧
    (∀ (l0 : LogLine) (rest : LogFile), l0.content = .blank →
      sensor_range (some (l0 :: rest)) tail = .ok none none 0) ∧
    (∀ (l0 : LogLine) (rest : LogFile), l0.content = .bad →
      sensor_range (some (l0 :: rest)) tail = .err) ∧
    (∀ (l0 : LogLine) (rest : LogFile) (ll : LogLine) (o : JsonObj),
      l0.content = .obj o → rest.getLast? = some ll → ll.content = .bad →
      sensor_range (some (l0 :: rest)) tail = .err) := by
  refine ⟨rfl, rfl, ?_, ?_, ?_⟩
  · intro l0 rest hc
    rw [sensor_range, hc]
  · intro l0 rest hc
    rw [sensor_range, hc]
  · intro l0 rest ll o hc hl hlc
    rw [sensor_range, hc]
    dsimp only
    rw [hl]
    dsimp only
    rw [hlc]

theorem c8_summary_amended_witness :
    sensor_range (some [⟨3, .blank⟩, goodLine 60 4 raw4]) .blank =
      .ok none none 0 :=
  (c8_summary_amended .blank).2.2.1 ⟨3, .blank⟩ [goodLine 60 4 raw4] rfl

/-- A six-line file, 60 bytes per line, whose timestamps 1,1,1,1,9,1 are
not monotone. -/
theorem c9_search_refuted :
    find_start_offset file6 5 0 (fileSize file6) = 180 ∧
    find_start_offset file6 5 180 (fileSize file6) = 360 := by
  decide

/-- C9 amended: on a file whose get_timestamp values are non-decreasing
line by line, find_start_offset is idempotent - re-running the search
from its own result returns the same offset; and on every file the
result is monotone in the target timestamp. -/
theorem c9_search_amended :
    (∀ (file : LogFile) (T : Nat),
      List.Pairwise
        (fun a b => get_timestamp a.content ≤ get_timestamp b.content) file →
      find_start_offset file T (find_start_offset file T 0 (fileSize file))
          (fileSize file) =
        find_start_offset file T 0 (fileSize file)) ∧
    (∀ (file : LogFile) (T1 T2 : Nat), T1 < T2 →
      find_start_offset file T1 0 (fileSize file) ≤
        find_start_offset file T2 0 (fileSize file)) := by
  constructor
  · intro file T hmono
    rw [find_start_offset, find_start_offset, Nat.sub_zero]
    have hab : AboveAll file T
        (offsetSearch file (fun t => decide (t < T)) (fileSize file) 0
          (fileSize file)) := by
      refine offsetSearch_aboveAll file hmono T _ ?_ (fileSize file) 0
        (fileSize file) (by omega) (aboveAll_fileSize file T)
      intro t ht
      have h3 := of_decide_eq_false ht
      omega
    apply offsetSearch_no_advance
    intro p c q hp hs
    have h2 := hab p c q hp hs
    simp only [decide_eq_false_iff_not]
    omega
  · intro file T1 T2 h
    rw [find_start_offset, find_start_offset, Nat.sub_zero]
    apply offsetSearch_mono_pred
    intro t ht
    have h2 := of_decide_eq_true ht
    exact decide_eq_true (by omega)

theorem c9_search_amended_witness :
    (find_start_offset file4 5 (find_start_offset file4 5 0 (fileSize file4))
        (fileSize file4) =
      find_start_offset file4 5 0 (fileSize file4)) ∧
    find_start_offset file4 3 0 (fileSize file4) ≤
      find_start_offset file4 7 0 (fileSize file4) :=
  ⟨c9_search_amended.1 file4 5 (by decide), c9_search_amended.2 file4 3 7 (by decide)⟩

theorem mem_decimGo (file : LogFile) (step : Nat) :
    ∀ n pos o, o ∈ decimGo file step n pos →
      ∃ p q, readAfterSkip file p = some (.obj o, q) := by
  intro n
  induction n with
  | zero => intro pos o h; simp [decimGo] at h
  | succ n ih =>
    intro pos o h
    rw [decimGo] at h
    rcases List.mem_append.mp h with h1 | h1
    · cases hr : readAfterSkip file pos with
      | none => rw [hr] at h1; simp at h1
      | some r =>
        obtain ⟨c, q⟩ := r
        rw [hr] at h1
        cases c with
        | blank => simp at h1
        | bad => simp at h1
        | obj o' =>
          simp at h1
          exact ⟨pos, q, by rw [hr, h1]⟩
    · exact ih (pos + step) o h1

theorem decimGo_single (l : LogLine) (step : Nat) :
    ∀ n pos, decimGo [l] step n pos = [] := by
  intro n
  induction n with
  | zero => intro pos; rfl
  | succ n ih =>
    intro pos
    rw [decimGo]
    have hr : readAfterSkip [l] pos = none := rfl
    rw [hr, ih (pos + step)]
    rfl

/-- C10 confirmed: at every sampled position, including byte 0, the
first readline discards a whole or partial line, so the line collected
always starts strictly after the probe position and is never the file's
first line; every returned record decodes some line beyond the first.
On a one-line file every probe's second readline returns the empty
string and the result is empty. -/
theorem c10_decimation_skips_first (file : LogFile) (n : Nat) :
    (∀ o ∈ get_decimated_data (some file) n,
      ∃ l ∈ file.drop 1, l.content = .obj o) ∧
    (file.length = 1 → get_decimated_data (some file) n = []) := by
  constructor
  · intro o ho
    rw [get_decimated_data] at ho
    by_cases hz : fileSize file = 0
    · rw [if_pos hz] at ho
      simp at ho
    · rw [if_neg hz] at ho
      obtain ⟨p, q, hr⟩ := mem_decimGo file _ n 0 o ho
      exact readAfterSkip_mem_drop file p _ q hr
  · intro hlen
    cases file with
    | nil => simp at hlen
    | cons l rest =>
      cases rest with
      | nil =>
        rw [get_decimated_data]
        by_cases hz : fileSize [l] = 0
        · rw [if_pos hz]
        · rw [if_neg hz]
          exact decimGo_single l _ n 0
      | cons l2 r2 => simp at hlen

theorem c10_decimation_skips_first_witness :
    (∃ l ∈ file4.drop 1, l.content = .obj (rec4ts 3 raw3)) ∧
    get_decimated_data (some [goodLine 60 4 raw4]) 1000 = [] :=
  ⟨(c10_decimation_skips_first file4 4).1 (rec4ts 3 raw3) (by decide),
   (c10_decimation_skips_first [goodLine 60 4 raw4] 1000).2 rfl⟩

end Simoc
